import Mathlib

/-!
Verification of the GraphQL request encoder / response normalizer
(`src/index.ts`) against its natural-language specification.

The TypeScript source is shallowly embedded:

* JavaScript values reachable from a `variables` argument are modelled by the
  inductive type `JsonVal` (objects are ordered association lists, mirroring
  JavaScript `Object.keys` insertion order; `File` instances are opaque leaves
  identified by a natural number; `undefined` models the JavaScript value
  `undefined`).
* The recursive walker `doWalkObject` mutates its argument in place and its
  visitor captures mutable state in a closure; both effects are made explicit:
  the embedded walker threads a visitor state and returns the post-mutation
  tree together with the visitor's boolean verdict.
* `JSON.stringify` arguments are kept structural: a request body holds the
  JSON value that the source would stringify, not the serialized string.
-/

inductive JsonVal : Type where
  | null : JsonVal
  | undefined : JsonVal
  | bool (b : Bool) : JsonVal
  | num (n : Int) : JsonVal
  | str (s : String) : JsonVal
  | file (id : Nat) : JsonVal
  | arr (elems : List JsonVal) : JsonVal
  | obj (fields : List (String × JsonVal)) : JsonVal

/-- Source `makePath` (line 159): `[path, key].filter(v => v !== '').join('.')`. -/
def makePath (path : String) (key : String) : String :=
  String.intercalate "." (List.filter (fun v => v != "") [path, key])

/-- `v instanceof File` test used by the walker and the client visitor. -/
def JsonVal.isFile : JsonVal → Bool
  | .file _ => true
  | _ => false

/-- A walker visitor (source line 129). The TypeScript callback closes over
mutable state; here the state `σ` is threaded explicitly. The returned `Bool`
is the callback's return value: `false` means "null this value out". The
visited value is `JsonVal` (including `.undefined`, since the source passes a
possibly-undefined root straight to the callback). -/
def Visitor (σ : Type) : Type :=
  σ → JsonVal → String → σ × Bool

mutual

/-- Source `doWalkObject` (lines 131-153). Arrays and non-`File` objects are
recursed into (the TypeScript `return;` yields `undefined`, which fails the
parent's `=== false` test, so containers are modelled as returning `true`);
every other value — `null`, `undefined`, scalars and `File`s — is passed to
the callback. A child whose recursive call returns `false` is overwritten
with `null` in the rebuilt container. -/
def doWalkObject {σ : Type} (fn : Visitor σ) : JsonVal → String → σ → JsonVal × σ × Bool
  | .arr xs, path, s =>
      let r := doWalkArr fn xs 0 path s
      (.arr r.1, r.2, true)
  | .obj fs, path, s =>
      let r := doWalkFields fn fs path s
      (.obj r.1, r.2, true)
  | .null, path, s =>
      let r := fn s .null path
      (.null, r.1, r.2)
  | .undefined, path, s =>
      let r := fn s .undefined path
      (.undefined, r.1, r.2)
  | .bool b, path, s =>
      let r := fn s (.bool b) path
      (.bool b, r.1, r.2)
  | .num n, path, s =>
      let r := fn s (.num n) path
      (.num n, r.1, r.2)
  | .str t, path, s =>
      let r := fn s (.str t) path
      (.str t, r.1, r.2)
  | .file id, path, s =>
      let r := fn s (.file id) path
      (.file id, r.1, r.2)

/-- The `obj.forEach((v, i) => ...)` loop of the array branch (lines 134-138),
with `i` the index of the first element of the remaining list. -/
def doWalkArr {σ : Type} (fn : Visitor σ) : List JsonVal → Nat → String → σ → List JsonVal × σ
  | [], _, _, s => ([], s)
  | v :: vs, i, path, s =>
      let r := doWalkObject fn v (makePath path (toString i)) s
      let v' := if r.2.2 then r.1 else JsonVal.null
      let rest := doWalkArr fn vs (i + 1) path r.2.1
      (v' :: rest.1, rest.2)

/-- The `Object.keys(obj).forEach(k => ...)` loop of the object branch
(lines 143-147). -/
def doWalkFields {σ : Type} (fn : Visitor σ) : List (String × JsonVal) → String → σ → List (String × JsonVal) × σ
  | [], _, s => ([], s)
  | (k, v) :: fs, path, s =>
      let r := doWalkObject fn v (makePath path k) s
      let v' := if r.2.2 then r.1 else JsonVal.null
      let rest := doWalkFields fn fs path r.2.1
      ((k, v') :: rest.1, rest.2)

end

/-- Source `walkObject` (lines 155-157): start the walk at the empty path.
The boolean verdict of the root call is discarded, so a root-level leaf is
never nulled out. -/
def walkObject {σ : Type} (fn : Visitor σ) (obj : JsonVal) (s : σ) : JsonVal × σ :=
  let r := doWalkObject fn obj "" s
  (r.1, r.2.1)

/-- The mutable `map` and `files` dictionaries of `graphqlClient`
(lines 73-74), as insertion-ordered association lists. -/
structure FileState where
  map : List (String × List String)
  files : List (String × JsonVal)

/-- The file-detecting visitor of `graphqlClient` (lines 75-83): on a `File`,
record `map[i] = ["variables." + path]` and `files[i] = v` where
`i = Object.keys(map).length`, and return `false` so the walker nulls the
occurrence out; otherwise return `true`. -/
def fileVisitor : Visitor FileState := fun s v path =>
  match v with
  | .file id =>
      let i := s.map.length
      (⟨s.map ++ [(toString i, ["variables." ++ path])],
        s.files ++ [(toString i, JsonVal.file id)]⟩, false)
  | _ => (s, true)

/-- The file-detection pass of `graphqlClient`: `walkObject(variables, ...)`
with initially empty `map`/`files`, returning the (in-place mutated)
variables tree and the two dictionaries. -/
def clientWalk (vars : JsonVal) : JsonVal × FileState :=
  walkObject fileVisitor vars ⟨[], []⟩

/-- The caller's `variables` object as observed after a call to the client:
the source walks the caller's object itself (no clone), so the in-place
mutation performed by `doWalkObject` is the post-call state of that object. -/
def variablesAfterCall (vars : JsonVal) : JsonVal :=
  (clientWalk vars).1

mutual

/-- Spec-side characterization (section 3, "File Map", and section 8, "Path
construction"): the file occurrences of a tree as `(dotted path, File)`
pairs in depth-first encounter order, sequences by index and mappings by key
order, paths built with the source's `makePath`. -/
def fileOccs : JsonVal → String → List (String × JsonVal)
  | .file id, p => [(p, .file id)]
  | .arr xs, p => fileOccsArr xs 0 p
  | .obj fs, p => fileOccsFields fs p
  | .null, _ => []
  | .undefined, _ => []
  | .bool _, _ => []
  | .num _, _ => []
  | .str _, _ => []

/-- File occurrences of the elements of an array, first element at index `i`. -/
def fileOccsArr : List JsonVal → Nat → String → List (String × JsonVal)
  | [], _, _ => []
  | v :: vs, i, p => fileOccs v (makePath p (toString i)) ++ fileOccsArr vs (i + 1) p

/-- File occurrences of the fields of an object, in field order. -/
def fileOccsFields : List (String × JsonVal) → String → List (String × JsonVal)
  | [], _ => []
  | (k, v) :: fs, p => fileOccs v (makePath p k) ++ fileOccsFields fs p

end

mutual

/-- Spec-side (section 8): the number of file-like leaves of a variables
tree. -/
def countFiles : JsonVal → Nat
  | .file _ => 1
  | .arr xs => countFilesArr xs
  | .obj fs => countFilesFields fs
  | .null => 0
  | .undefined => 0
  | .bool _ => 0
  | .num _ => 0
  | .str _ => 0

/-- Number of file-like leaves below the elements of an array. -/
def countFilesArr : List JsonVal → Nat
  | [] => 0
  | v :: vs => countFiles v + countFilesArr vs

/-- Number of file-like leaves below the fields of an object. -/
def countFilesFields : List (String × JsonVal) → Nat
  | [] => 0
  | (_, v) :: fs => countFiles v + countFilesFields fs

end

mutual

/-- Spec-side (sections 4.2 and 8): the input tree with every file-like leaf
sitting inside a container replaced by `null`, and everything else — keys,
order, non-file leaves, and a file-like root, which has no parent container —
left untouched. -/
def nullFiles : JsonVal → JsonVal
  | .arr xs => .arr (nullFilesArr xs)
  | .obj fs => .obj (nullFilesFields fs)
  | .null => .null
  | .undefined => .undefined
  | .bool b => .bool b
  | .num n => .num n
  | .str s => .str s
  | .file id => .file id

/-- `nullFiles` on the elements of an array. -/
def nullFilesArr : List JsonVal → List JsonVal
  | [] => []
  | v :: vs => (if v.isFile then JsonVal.null else nullFiles v) :: nullFilesArr vs

/-- `nullFiles` on the fields of an object. -/
def nullFilesFields : List (String × JsonVal) → List (String × JsonVal)
  | [] => []
  | (k, v) :: fs => (k, if v.isFile then JsonVal.null else nullFiles v) :: nullFilesFields fs

end

/-- Spec-side (section 3, "File Map"): the synthetic-index entries
`i ↦ ["variables." ++ path]` for a list of file occurrences, indices counting
up from `n`. -/
def mapEntries (n : Nat) : List (String × JsonVal) → List (String × List String)
  | [] => []
  | (p, _) :: os => (toString n, ["variables." ++ p]) :: mapEntries (n + 1) os

/-- Spec-side (section 3, "File Payload Set"): the synthetic-index entries
`i ↦ file` for a list of file occurrences, indices counting up from `n`. -/
def fileEntries (n : Nat) : List (String × JsonVal) → List (String × JsonVal)
  | [] => []
  | (_, f) :: os => (toString n, f) :: fileEntries (n + 1) os

/-- Source lines 70: `Array.isArray(query) ? query.join('\n') : query`. -/
def joinQuery : String ⊕ List String → String
  | .inl q => q
  | .inr qs => String.intercalate "\n" qs

/-- The `variables` field of the `JSON.stringify({ query, variables })`
argument. `JSON.stringify` drops an object property whose value is
`undefined`, so an undefined variables argument contributes no field. -/
def varsField : JsonVal → List (String × JsonVal)
  | .undefined => []
  | .null => [("variables", .null)]
  | .bool b => [("variables", .bool b)]
  | .num n => [("variables", .num n)]
  | .str s => [("variables", .str s)]
  | .file id => [("variables", .file id)]
  | .arr xs => [("variables", .arr xs)]
  | .obj fs => [("variables", .obj fs)]

/-- The JSON value `{ query, variables }` that the source passes to
`JSON.stringify` (lines 93-96 and 102-105). -/
def stringifyArg (query : String) (vars : JsonVal) : JsonVal :=
  .obj (("query", .str query) :: varsField vars)

/-- The HTTP request body (lines 87-107): either
`JSON.stringify({ query, variables })` or a `FormData` with the
`operations` part, the `map` part and one part per file, each part holding
the JSON value the source would stringify. -/
inductive RequestBody : Type where
  | jsonBody (value : JsonVal) : RequestBody
  | formBody (operations : JsonVal) (map : List (String × List String))
      (fileParts : List (String × JsonVal)) : RequestBody

/-- The request handed to `httpClient.post` (lines 110-115): a body and the
headers object. -/
structure Request where
  body : RequestBody
  headers : List (String × String)

/-- The request-building part of `graphqlClient` (lines 73-107): walk the
variables for files; if the `map` dictionary is non-empty post a `FormData`
with `operations`, `map` and the file parts (no `Content-Type` header),
otherwise post `JSON.stringify({ query, variables })` with
`Content-Type: application/json`; both branches carry
`Accept: application/json`, and both serialize the post-walk variables
tree. -/
def buildRequest (query : String) (vars : JsonVal) : Request :=
  let w := clientWalk vars
  if w.2.map.length ≠ 0 then
    { body := .formBody (stringifyArg query w.1) w.2.map w.2.files
      headers := [("Accept", "application/json")] }
  else
    { body := .jsonBody (stringifyArg query w.1)
      headers := [("Accept", "application/json"), ("Content-Type", "application/json")] }

/-- The `extensions` object of a GraphQL error entry (lines 5-7). -/
structure Extensions where
  code : Int

/-- Source `GraphQlErrorObj` (lines 3-9); `extensions.code` is a number. -/
structure GraphQlErrorObj where
  message : String
  extensions : Option Extensions := none
  path : Option (List String) := none

/-- Source `GraphQlResponse<T>` (lines 11-14); both fields are runtime-checked
with `typeof ... !== 'undefined'`, so both are modelled as optional. -/
structure GraphQlResponse where
  data : Option JsonVal := none
  errors : Option (List GraphQlErrorObj) := none

/-- Source line 16. -/
def GraphQlErrorName : String := "GraphQlError"

/-- A JavaScript `Error` instance as observed by `fromError`/`hasErrorCode`:
a `name`, a `message`, and the two `GraphQlError` fields, which are absent
(`none`) on errors not built by the `GraphQlError` constructor. The stack
capture of the constructor (lines 25-29) is a debugging side effect with no
bearing on any field read by this module and is not modelled. -/
structure JsError where
  name : String
  message : String
  codes : Option (List Int) := none
  errors : Option (List GraphQlErrorObj) := none

namespace GraphQlError

/-- The `GraphQlError` constructor (lines 22-30): sets `name` to
`GraphQlErrorName` and initializes `codes` and `errors` to empty lists. -/
def new (message : String) : JsError :=
  { name := GraphQlErrorName, message := message, codes := some [], errors := some [] }

/-- The `forEach` loop of `fromResponse` (lines 38-42): push
`e.extensions.code` for every error whose `extensions` is present and whose
`code` is truthy (a number is truthy exactly when it is non-zero). -/
def collectCodes (es : List GraphQlErrorObj) : List Int :=
  es.foldl
    (fun acc e =>
      match e.extensions with
      | some ext => if ext.code != 0 then acc ++ [ext.code] else acc
      | none => acc)
    []

/-- Source `GraphQlError.fromResponse` (lines 32-46): start from
`new GraphQlError('unknown error')`; if `data.errors` is defined copy it into
`err.errors`, and if it is non-empty overwrite the message with the first
error's message and collect the codes. -/
def fromResponse (data : GraphQlResponse) : JsError :=
  let err := new "unknown error"
  match data.errors with
  | none => err
  | some es =>
    match es with
    | [] => { err with errors := some es }
    | e0 :: _ =>
      { err with errors := some es, message := e0.message, codes := some (collectCodes es) }

/-- Source `GraphQlError.fromError` (lines 48-53): classify purely by the
`name` tag; on a match the very value passed in is returned. -/
def fromError (err : JsError) : Option JsError :=
  if err.name = GraphQlErrorName then some err else none

/-- Source `GraphQlError.hasErrorCode` (lines 55-61): classify with
`fromError`, then test membership in `codes`. (On every error actually built
by the `GraphQlError` constructor the `codes` field is present; a missing
field reads as the empty list here.) -/
def hasErrorCode (err : JsError) (code : Int) : Bool :=
  match fromError err with
  | none => false
  | some gqlErr => (gqlErr.codes.getD []).contains code

end GraphQlError

/-- The plain `new Error('no data returned')` of line 121: name `"Error"`,
no `codes`/`errors` fields. -/
def noDataError : JsError :=
  { name := "Error", message := "no data returned" }

/-- Outcome of one client call after the response envelope is decoded: the
promise either resolves with `data.data` or rejects with a thrown error. -/
inductive CallOutcome : Type where
  | ok (data : JsonVal) : CallOutcome
  | thrown (e : JsError) : CallOutcome

/-- The response-handling callback of `graphqlClient` (lines 116-124): if
`data.errors` is defined (present, whether or not empty) throw
`GraphQlError.fromResponse(data)`; else if `data.data` is undefined throw
`new Error('no data returned')`; else resolve with `data.data`. -/
def handleResponse (data : GraphQlResponse) : CallOutcome :=
  match data.errors with
  | some _ => .thrown (GraphQlError.fromResponse data)
  | none =>
    match data.data with
    | none => .thrown noDataError
    | some d => .ok d

/-- Spec-side (section 4.3): the truthy `extensions.code` values in error
order, duplicates kept. -/
def truthyCodes (es : List GraphQlErrorObj) : List Int :=
  es.filterMap fun e =>
    match e.extensions with
    | some ext => if ext.code != 0 then some ext.code else none
    | none => none

/-- A visitor that records every invocation as a `(value, path)` pair; its
state is the list of invocations made so far. Used to observe exactly when
and with what arguments the walker calls its callback. -/
def traceVisitor : Visitor (List (JsonVal × String)) := fun s v path =>
  (s ++ [(v, path)], true)

/-- JavaScript property lookup on the association-list model of an object:
the value of the first field with the given key. -/
def lookupField : List (String × JsonVal) → String → Option JsonVal
  | [], _ => none
  | (k0, v) :: fs, k => if k0 == k then some v else lookupField fs k

/-- Structural access along a list of keys — `.inl k` reads an object field,
`.inr i` reads an array index; `none` when the path does not exist. -/
def getAtKeys : JsonVal → List (String ⊕ Nat) → Option JsonVal
  | v, [] => some v
  | .arr xs, .inr i :: ks =>
    (match xs[i]? with
     | some w => getAtKeys w ks
     | none => none)
  | .obj fs, .inl k :: ks =>
    (match lookupField fs k with
     | some w => getAtKeys w ks
     | none => none)
  | _, _ :: _ => none

/-- Whether an access result is exactly the JSON value `null`. -/
def isNullRes : Option JsonVal → Bool
  | some JsonVal.null => true
  | _ => false

mutual

/-- The structural key paths of the file-like leaves of a tree, in the same
depth-first order in which the walker encounters them. -/
def fileKeyPaths : JsonVal → List (List (String ⊕ Nat))
  | .file _ => [[]]
  | .arr xs => fileKeyPathsArr xs 0
  | .obj fs => fileKeyPathsFields fs
  | .null => []
  | .undefined => []
  | .bool _ => []
  | .num _ => []
  | .str _ => []

/-- Key paths of the files below the elements of an array, first element at
index `i`. -/
def fileKeyPathsArr : List JsonVal → Nat → List (List (String ⊕ Nat))
  | [], _ => []
  | v :: vs, i =>
    (fileKeyPaths v).map (fun ks => .inr i :: ks) ++ fileKeyPathsArr vs (i + 1)

/-- Key paths of the files below the fields of an object. -/
def fileKeyPathsFields : List (String × JsonVal) → List (List (String ⊕ Nat))
  | [] => []
  | (k, v) :: fs =>
    (fileKeyPaths v).map (fun ks => .inl k :: ks) ++ fileKeyPathsFields fs

end

/-- No string occurs twice in the list. -/
def keysNodup : List String → Bool
  | [] => true
  | k :: ks => (!ks.contains k) && keysNodup ks

mutual

/-- Well-formedness of a tree as the image of a JavaScript value: every
object has pairwise distinct keys (a JavaScript object cannot hold the same
key twice; the association-list model can, so trees violating this represent
no JavaScript value). -/
def wfKeys : JsonVal → Bool
  | .arr xs => wfKeysArr xs
  | .obj fs => keysNodup (fs.map Prod.fst) && wfKeysFields fs
  | .null => true
  | .undefined => true
  | .bool _ => true
  | .num _ => true
  | .str _ => true
  | .file _ => true

/-- `wfKeys` on the elements of an array. -/
def wfKeysArr : List JsonVal → Bool
  | [] => true
  | v :: vs => wfKeys v && wfKeysArr vs

/-- `wfKeys` on the fields of an object. -/
def wfKeysFields : List (String × JsonVal) → Bool
  | [] => true
  | (_, v) :: fs => wfKeys v && wfKeysFields fs

end

/-- Full specification of one walker call with the file-detecting visitor:
the rebuilt tree is the input with container-held file leaves nulled, the
`map`/`files` dictionaries are extended with one synthetic-index entry per
file occurrence in encounter order (indices continuing from the current
`map` size), and the returned verdict is `false` exactly on a file leaf. -/
def WalkSpec (v : JsonVal) : Prop :=
  ∀ (path : String) (s : FileState),
    doWalkObject fileVisitor v path s =
      (nullFiles v,
       ⟨s.map ++ mapEntries s.map.length (fileOccs v path),
        s.files ++ fileEntries s.map.length (fileOccs v path)⟩,
       !v.isFile)

/-- A concrete variables tree with a top-level file under key `"avatar"` and
a nested file at `variables.user.photos[2]`, exercising both path shapes of
the specification's examples. -/
def exTree : JsonVal :=
  .obj [("avatar", .file 0),
        ("user", .obj [("photos", .arr [.str "a", .str "b", .file 1])])]

/-- A decoded envelope whose `errors` array is present but empty and whose
`data` is absent. -/
def emptyErrorsEnvelope : GraphQlResponse :=
  { data := none, errors := some [] }

/-- An error value not built by the `GraphQlError` constructor — it lacks the
`codes` and `errors` fields — but carrying the `GraphQlError` name tag. -/
def forgedError : JsError :=
  { name := "GraphQlError", message := "forged" }

/-- Induction over `JsonVal` with membership hypotheses for the children of
containers. -/
theorem JsonVal.memInduction (P : JsonVal → Prop)
    (hnull : P .null) (hundefined : P .undefined)
    (hbool : ∀ b, P (.bool b)) (hnum : ∀ n, P (.num n))
    (hstr : ∀ s, P (.str s)) (hfile : ∀ id, P (.file id))
    (harr : ∀ xs, (∀ x ∈ xs, P x) → P (.arr xs))
    (hobj : ∀ fs, (∀ kv ∈ fs, P kv.2) → P (.obj fs)) :
    ∀ v, P v
  | .null => hnull
  | .undefined => hundefined
  | .bool b => hbool b
  | .num n => hnum n
  | .str s => hstr s
  | .file id => hfile id
  | .arr xs => harr xs (fun x hx =>
      JsonVal.memInduction P hnull hundefined hbool hnum hstr hfile harr hobj x)
  | .obj fs => hobj fs (fun kv hkv =>
      JsonVal.memInduction P hnull hundefined hbool hnum hstr hfile harr hobj kv.2)
termination_by v => sizeOf v
decreasing_by
  · have h1 := List.sizeOf_lt_of_mem hx
    simp only [JsonVal.arr.sizeOf_spec]
    omega
  · have h1 := List.sizeOf_lt_of_mem hkv
    have h2 : sizeOf kv.2 < sizeOf kv := by
      obtain ⟨a, b⟩ := kv
      simp only [Prod.mk.sizeOf_spec]
      omega
    simp only [JsonVal.obj.sizeOf_spec]
    omega

/-- `mapEntries` produces one entry per occurrence. -/
theorem mapEntries_length (n : Nat) (os : List (String × JsonVal)) :
    (mapEntries n os).length = os.length := by
  induction os generalizing n with
  | nil => simp [mapEntries]
  | cons o os ih =>
    obtain ⟨p, f⟩ := o
    simp [mapEntries, ih]

/-- `mapEntries` splits over appended occurrence lists, later indices shifted
by the length of the first part. -/
theorem mapEntries_append (n : Nat) (o1 o2 : List (String × JsonVal)) :
    mapEntries n (o1 ++ o2) = mapEntries n o1 ++ mapEntries (n + o1.length) o2 := by
  induction o1 generalizing n with
  | nil => simp [mapEntries]
  | cons o os ih =>
    obtain ⟨p, f⟩ := o
    simp only [List.cons_append, mapEntries, List.length_cons, List.append_eq]
    rw [ih]
    have h : n + 1 + os.length = n + (os.length + 1) := by omega
    rw [h]

/-- `fileEntries` produces one entry per occurrence. -/
theorem fileEntries_length (n : Nat) (os : List (String × JsonVal)) :
    (fileEntries n os).length = os.length := by
  induction os generalizing n with
  | nil => simp [fileEntries]
  | cons o os ih =>
    obtain ⟨p, f⟩ := o
    simp [fileEntries, ih]

/-- `fileEntries` splits over appended occurrence lists, later indices
shifted by the length of the first part. -/
theorem fileEntries_append (n : Nat) (o1 o2 : List (String × JsonVal)) :
    fileEntries n (o1 ++ o2) = fileEntries n o1 ++ fileEntries (n + o1.length) o2 := by
  induction o1 generalizing n with
  | nil => simp [fileEntries]
  | cons o os ih =>
    obtain ⟨p, f⟩ := o
    simp only [List.cons_append, fileEntries, List.length_cons, List.append_eq]
    rw [ih]
    have h : n + 1 + os.length = n + (os.length + 1) := by omega
    rw [h]

/-- The array loop of the walker satisfies the elementwise specification,
provided every element does. -/
theorem doWalkArr_fileVisitor (xs : List JsonVal) (ih : ∀ x ∈ xs, WalkSpec x) :
    ∀ (i : Nat) (path : String) (s : FileState),
      doWalkArr fileVisitor xs i path s =
        (nullFilesArr xs,
         ⟨s.map ++ mapEntries s.map.length (fileOccsArr xs i path),
          s.files ++ fileEntries s.map.length (fileOccsArr xs i path)⟩) := by
  induction xs with
  | nil =>
    intro i path s
    simp [doWalkArr, fileOccsArr, nullFilesArr, mapEntries, fileEntries]
  | cons v vs ihl =>
    intro i path s
    have hv := ih v (by simp)
    have hvs : ∀ x ∈ vs, WalkSpec x := fun x hx => ih x (by simp [hx])
    simp only [doWalkArr, fileOccsArr, nullFilesArr]
    rw [hv (makePath path (toString i)) s]
    rw [ihl hvs (i + 1) path _]
    simp only [List.length_append, mapEntries_length, mapEntries_append,
      fileEntries_append, List.append_assoc, Prod.mk.injEq, List.cons.injEq]
    cases hf : v.isFile <;> simp [hf]

/-- The object loop of the walker satisfies the fieldwise specification,
provided every field value does. -/
theorem doWalkFields_fileVisitor (fs : List (String × JsonVal))
    (ih : ∀ kv ∈ fs, WalkSpec kv.2) :
    ∀ (path : String) (s : FileState),
      doWalkFields fileVisitor fs path s =
        (nullFilesFields fs,
         ⟨s.map ++ mapEntries s.map.length (fileOccsFields fs path),
          s.files ++ fileEntries s.map.length (fileOccsFields fs path)⟩) := by
  induction fs with
  | nil =>
    intro path s
    simp [doWalkFields, fileOccsFields, nullFilesFields, mapEntries, fileEntries]
  | cons kv fs ihl =>
    obtain ⟨k, v⟩ := kv
    intro path s
    have hv := ih (k, v) (by simp)
    have hfs : ∀ kv ∈ fs, WalkSpec kv.2 := fun kv hkv => ih kv (by simp [hkv])
    simp only [doWalkFields, fileOccsFields, nullFilesFields]
    rw [hv (makePath path k) s]
    rw [ihl hfs path _]
    simp only [List.length_append, mapEntries_length, mapEntries_append,
      fileEntries_append, List.append_assoc, Prod.mk.injEq, List.cons.injEq]
    cases hf : v.isFile <;> simp [hf]

/-- Every tree satisfies the walker specification: `doWalkObject` with the
client's file visitor returns the file-nulled tree, appends the
encounter-ordered file map and payload entries, and reports `false` exactly
on a file leaf. -/
theorem walkSpec_all : ∀ v, WalkSpec v := by
  intro v
  induction v using JsonVal.memInduction with
  | hnull =>
    intro path s
    simp [doWalkObject, fileVisitor, nullFiles, fileOccs, mapEntries, fileEntries, JsonVal.isFile]
  | hundefined =>
    intro path s
    simp [doWalkObject, fileVisitor, nullFiles, fileOccs, mapEntries, fileEntries, JsonVal.isFile]
  | hbool b =>
    intro path s
    simp [doWalkObject, fileVisitor, nullFiles, fileOccs, mapEntries, fileEntries, JsonVal.isFile]
  | hnum n =>
    intro path s
    simp [doWalkObject, fileVisitor, nullFiles, fileOccs, mapEntries, fileEntries, JsonVal.isFile]
  | hstr t =>
    intro path s
    simp [doWalkObject, fileVisitor, nullFiles, fileOccs, mapEntries, fileEntries, JsonVal.isFile]
  | hfile id =>
    intro path s
    simp [doWalkObject, fileVisitor, nullFiles, fileOccs, mapEntries, fileEntries, JsonVal.isFile]
  | harr xs ih =>
    intro path s
    simp only [doWalkObject, nullFiles, fileOccs, JsonVal.isFile]
    rw [doWalkArr_fileVisitor xs ih 0 path s]
    simp
  | hobj fs ih =>
    intro path s
    simp only [doWalkObject, nullFiles, fileOccs, JsonVal.isFile]
    rw [doWalkFields_fileVisitor fs ih path s]
    simp

/-- The client's file-detection pass, closed form: the walked tree is
`nullFiles`, and the two dictionaries enumerate the file occurrences from
index `0`. -/
theorem clientWalk_eq (v : JsonVal) :
    clientWalk v =
      (nullFiles v, ⟨mapEntries 0 (fileOccs v ""), fileEntries 0 (fileOccs v "")⟩) := by
  have h := walkSpec_all v "" ⟨[], []⟩
  simp only [clientWalk, walkObject, h]
  simp

/-- Array occurrences: one per file leaf below the elements. -/
theorem fileOccsArr_length (xs : List JsonVal)
    (ih : ∀ x ∈ xs, ∀ p, (fileOccs x p).length = countFiles x) :
    ∀ (i : Nat) (p : String), (fileOccsArr xs i p).length = countFilesArr xs := by
  induction xs with
  | nil => intro i p; simp [fileOccsArr, countFilesArr]
  | cons v vs ihl =>
    intro i p
    simp only [fileOccsArr, countFilesArr, List.length_append]
    rw [ih v (by simp), ihl (fun x hx => ih x (by simp [hx]))]

/-- Field occurrences: one per file leaf below the field values. -/
theorem fileOccsFields_length (fs : List (String × JsonVal))
    (ih : ∀ kv ∈ fs, ∀ p, (fileOccs kv.2 p).length = countFiles kv.2) :
    ∀ (p : String), (fileOccsFields fs p).length = countFilesFields fs := by
  induction fs with
  | nil => intro p; simp [fileOccsFields, countFilesFields]
  | cons kv fs ihl =>
    obtain ⟨k, v⟩ := kv
    intro p
    simp only [fileOccsFields, countFilesFields, List.length_append]
    rw [ih (k, v) (by simp), ihl (fun kv hkv => ih kv (by simp [hkv]))]

/-- The occurrence list has exactly one entry per file-like leaf, whatever
the path prefix. -/
theorem fileOccs_length (v : JsonVal) : ∀ p, (fileOccs v p).length = countFiles v := by
  induction v using JsonVal.memInduction with
  | hnull => intro p; simp [fileOccs, countFiles]
  | hundefined => intro p; simp [fileOccs, countFiles]
  | hbool b => intro p; simp [fileOccs, countFiles]
  | hnum n => intro p; simp [fileOccs, countFiles]
  | hstr t => intro p; simp [fileOccs, countFiles]
  | hfile id => intro p; simp [fileOccs, countFiles]
  | harr xs ih =>
    intro p
    simp only [fileOccs, countFiles]
    exact fileOccsArr_length xs ih 0 p
  | hobj fs ih =>
    intro p
    simp only [fileOccs, countFiles]
    exact fileOccsFields_length fs ih p

/-- An array with no file leaves below it is untouched by `nullFilesArr`. -/
theorem nullFilesArr_of_no_files (xs : List JsonVal)
    (ih : ∀ x ∈ xs, countFiles x = 0 → nullFiles x = x) :
    countFilesArr xs = 0 → nullFilesArr xs = xs := by
  induction xs with
  | nil => intro _; simp [nullFilesArr]
  | cons v vs ihl =>
    intro h0
    simp only [countFilesArr] at h0
    have hv0 : countFiles v = 0 := by omega
    have hvs0 : countFilesArr vs = 0 := by omega
    have hvf : v.isFile = false := by
      cases v <;> simp [JsonVal.isFile] <;> simp [countFiles] at hv0
    simp only [nullFilesArr, hvf, if_neg, Bool.false_eq_true, ite_false]
    rw [ih v (by simp) hv0, ihl (fun x hx => ih x (by simp [hx]) ) hvs0]

/-- An object with no file leaves below it is untouched by
`nullFilesFields`. -/
theorem nullFilesFields_of_no_files (fs : List (String × JsonVal))
    (ih : ∀ kv ∈ fs, countFiles kv.2 = 0 → nullFiles kv.2 = kv.2) :
    countFilesFields fs = 0 → nullFilesFields fs = fs := by
  induction fs with
  | nil => intro _; simp [nullFilesFields]
  | cons kv fs ihl =>
    obtain ⟨k, v⟩ := kv
    intro h0
    simp only [countFilesFields] at h0
    have hv0 : countFiles v = 0 := by omega
    have hfs0 : countFilesFields fs = 0 := by omega
    have hvf : v.isFile = false := by
      cases v <;> simp [JsonVal.isFile] <;> simp [countFiles] at hv0
    simp only [nullFilesFields, hvf, Bool.false_eq_true, ite_false]
    rw [ih (k, v) (by simp) hv0, ihl (fun kv hkv => ih kv (by simp [hkv])) hfs0]

/-- A tree with no file-like leaves is a fixed point of `nullFiles`. -/
theorem nullFiles_of_no_files (v : JsonVal) : countFiles v = 0 → nullFiles v = v := by
  induction v using JsonVal.memInduction with
  | hnull => intro _; simp [nullFiles]
  | hundefined => intro _; simp [nullFiles]
  | hbool b => intro _; simp [nullFiles]
  | hnum n => intro _; simp [nullFiles]
  | hstr t => intro _; simp [nullFiles]
  | hfile id => intro h; simp [countFiles] at h
  | harr xs ih =>
    intro h0
    simp only [countFiles] at h0
    simp only [nullFiles]
    rw [nullFilesArr_of_no_files xs ih h0]
  | hobj fs ih =>
    intro h0
    simp only [countFiles] at h0
    simp only [nullFiles]
    rw [nullFilesFields_of_no_files fs ih h0]

/-- A successful field lookup means the key occurs in the key list. -/
theorem lookupField_mem_keys (fs : List (String × JsonVal)) (k : String) (w : JsonVal) :
    lookupField fs k = some w → k ∈ fs.map Prod.fst := by
  induction fs with
  | nil => simp [lookupField]
  | cons kv fs ih =>
    obtain ⟨k0, v0⟩ := kv
    simp only [lookupField, List.map_cons, List.mem_cons]
    by_cases h : k0 = k
    · intro _
      exact Or.inl h.symm
    · have hb : (k0 == k) = false := by simp [h]
      simp only [hb, Bool.false_eq_true, if_false]
      intro hl
      exact Or.inr (ih hl)

/-- A successful field lookup returns the value of a field actually present
in the object. -/
theorem lookupField_mem (fs : List (String × JsonVal)) (k : String) (w : JsonVal) :
    lookupField fs k = some w → (k, w) ∈ fs := by
  induction fs with
  | nil => simp [lookupField]
  | cons kv fs ih =>
    obtain ⟨k0, v0⟩ := kv
    simp only [lookupField, List.mem_cons]
    by_cases h : k0 = k
    · subst h
      simp only [beq_self_eq_true, if_true, Option.some.injEq]
      intro hv
      exact Or.inl (by rw [hv])
    · have hb : (k0 == k) = false := by simp [h]
      simp only [hb, Bool.false_eq_true, if_false]
      intro hl
      exact Or.inr (ih hl)

/-- `nullFilesArr` acts elementwise on array indices. -/
theorem nullFilesArr_getElem (xs : List JsonVal) :
    ∀ (j : Nat), (nullFilesArr xs)[j]? =
      xs[j]?.map (fun w => if w.isFile then JsonVal.null else nullFiles w) := by
  induction xs with
  | nil => intro j; simp [nullFilesArr]
  | cons v vs ih =>
    intro j
    cases j with
    | zero => simp [nullFilesArr]
    | succ j => simp [nullFilesArr, List.getElem?_cons_succ, ih j]

/-- `nullFilesFields` preserves keys and acts on field values. -/
theorem lookupField_nullFilesFields (fs : List (String × JsonVal)) (k : String) :
    lookupField (nullFilesFields fs) k =
      (lookupField fs k).map (fun w => if w.isFile then JsonVal.null else nullFiles w) := by
  induction fs with
  | nil => simp [lookupField, nullFilesFields]
  | cons kv fs ih =>
    obtain ⟨k0, v0⟩ := kv
    by_cases h : k0 = k
    · subst h
      simp [nullFilesFields, lookupField]
    · have hb : (k0 == k) = false := by simp [h]
      simp [nullFilesFields, lookupField, hb, ih]

/-- Key-wellformedness of an array passes to any indexed element. -/
theorem wfKeysArr_getElem (xs : List JsonVal) (j : Nat) (w : JsonVal) :
    wfKeysArr xs = true → xs[j]? = some w → wfKeys w = true := by
  induction xs generalizing j with
  | nil => simp
  | cons v vs ih =>
    intro hwf hj
    simp only [wfKeysArr, Bool.and_eq_true] at hwf
    cases j with
    | zero =>
      simp only [List.getElem?_cons_zero, Option.some.injEq] at hj
      rw [← hj]
      exact hwf.1
    | succ j =>
      simp only [List.getElem?_cons_succ] at hj
      exact ih j hwf.2 hj

/-- Key-wellformedness of an object passes to any field value. -/
theorem wfKeysFields_mem (fs : List (String × JsonVal)) (k : String) (w : JsonVal) :
    wfKeysFields fs = true → (k, w) ∈ fs → wfKeys w = true := by
  induction fs with
  | nil => simp
  | cons kv fs ih =>
    obtain ⟨k0, v0⟩ := kv
    intro hwf hm
    simp only [wfKeysFields, Bool.and_eq_true] at hwf
    rcases List.mem_cons.mp hm with h | h
    · cases h
      exact hwf.1
    · exact ih hwf.2 h

/-- Decomposition of a file key path coming from the elements of an array:
it starts with the absolute index of some element, and its tail is a file
key path of that element. -/
theorem fileKeyPathsArr_mem (xs : List JsonVal) :
    ∀ (i : Nat) (ks : List (String ⊕ Nat)), ks ∈ fileKeyPathsArr xs i →
      ∃ (j : Nat) (tl : List (String ⊕ Nat)) (w : JsonVal),
        ks = .inr (i + j) :: tl ∧ xs[j]? = some w ∧ tl ∈ fileKeyPaths w := by
  induction xs with
  | nil =>
    intro i ks hks
    simp [fileKeyPathsArr] at hks
  | cons v vs ih =>
    intro i ks hks
    simp only [fileKeyPathsArr, List.mem_append, List.mem_map] at hks
    rcases hks with ⟨tl, htl, rfl⟩ | h
    · exact ⟨0, tl, v, by simp, by simp, htl⟩
    · obtain ⟨j, tl, w, rfl, hj, htl⟩ := ih (i + 1) ks h
      refine ⟨j + 1, tl, w, ?_, ?_, htl⟩
      · have : i + 1 + j = i + (j + 1) := by omega
        rw [this]
      · simpa [List.getElem?_cons_succ] using hj

/-- Decomposition of a file key path coming from the fields of an object
with pairwise-distinct keys: it starts with some field's key, looking that
key up finds that field's value, and the tail is a file key path of that
value. -/
theorem fileKeyPathsFields_mem (fs : List (String × JsonVal))
    (hnd : keysNodup (fs.map Prod.fst) = true) :
    ∀ (ks : List (String ⊕ Nat)), ks ∈ fileKeyPathsFields fs →
      ∃ (k : String) (tl : List (String ⊕ Nat)) (w : JsonVal),
        ks = .inl k :: tl ∧ lookupField fs k = some w ∧ tl ∈ fileKeyPaths w := by
  induction fs with
  | nil =>
    intro ks hks
    simp [fileKeyPathsFields] at hks
  | cons kv fs ih =>
    obtain ⟨k0, v0⟩ := kv
    intro ks hks
    simp only [List.map_cons, keysNodup, Bool.and_eq_true, Bool.not_eq_true'] at hnd
    simp only [fileKeyPathsFields, List.mem_append, List.mem_map] at hks
    rcases hks with ⟨tl, htl, rfl⟩ | h
    · refine ⟨k0, tl, v0, rfl, ?_, htl⟩
      simp [lookupField]
    · obtain ⟨k, tl, w, rfl, hl, htl⟩ := ih hnd.2 ks h
      refine ⟨k, tl, w, rfl, ?_, htl⟩
      have hkmem : k ∈ fs.map Prod.fst := lookupField_mem_keys fs k w hl
      have hk0 : k0 ∉ fs.map Prod.fst := by
        intro hc
        have hc' : (fs.map Prod.fst).contains k0 = true := List.elem_iff.mpr hc
        rw [hnd.1] at hc'
        exact absurd hc' (by simp)
      have hne : (k0 == k) = false := by
        have : k0 ≠ k := fun hEq => hk0 (hEq ▸ hkmem)
        simp [this]
      simp [lookupField, hne, hl]

/-- In the file-nulled image of a well-formed non-file tree, structural
access along any file key path of the original tree yields exactly `null`. -/
theorem getAtKeys_nullFiles (v : JsonVal) :
    wfKeys v = true → v.isFile = false →
    ∀ ks ∈ fileKeyPaths v, getAtKeys (nullFiles v) ks = some .null := by
  induction v using JsonVal.memInduction with
  | hnull =>
    intro _ _ ks hks
    simp [fileKeyPaths] at hks
  | hundefined =>
    intro _ _ ks hks
    simp [fileKeyPaths] at hks
  | hbool b =>
    intro _ _ ks hks
    simp [fileKeyPaths] at hks
  | hnum n =>
    intro _ _ ks hks
    simp [fileKeyPaths] at hks
  | hstr t =>
    intro _ _ ks hks
    simp [fileKeyPaths] at hks
  | hfile id =>
    intro _ hf
    simp [JsonVal.isFile] at hf
  | harr xs ih =>
    intro hwf _ ks hks
    simp only [fileKeyPaths] at hks
    obtain ⟨j, tl, w, rfl, hj, htl⟩ := fileKeyPathsArr_mem xs 0 ks hks
    simp only [Nat.zero_add]
    simp only [nullFiles, getAtKeys]
    rw [nullFilesArr_getElem xs j, hj]
    simp only [Option.map_some']
    by_cases hw : w.isFile = true
    · have hwfile : ∃ fid, w = .file fid := by
        cases w <;> simp [JsonVal.isFile] at hw
        exact ⟨_, rfl⟩
      obtain ⟨fid, rfl⟩ := hwfile
      simp only [fileKeyPaths, List.mem_singleton] at htl
      subst htl
      simp [JsonVal.isFile, getAtKeys]
    · have hwf' : wfKeys w = true :=
        wfKeysArr_getElem xs j w (by simpa [wfKeys] using hwf) hj
      have hw' : w.isFile = false := by simpa using hw
      have hrec := ih w (List.getElem?_mem hj) hwf' hw' tl htl
      simp only [hw', Bool.false_eq_true, if_false]
      exact hrec
  | hobj fs ih =>
    intro hwf _ ks hks
    have hwf' : keysNodup (fs.map Prod.fst) = true ∧ wfKeysFields fs = true := by
      simpa [wfKeys, Bool.and_eq_true] using hwf
    simp only [fileKeyPaths] at hks
    obtain ⟨k, tl, w, rfl, hl, htl⟩ := fileKeyPathsFields_mem fs hwf'.1 ks hks
    simp only [nullFiles, getAtKeys]
    rw [lookupField_nullFilesFields fs k, hl]
    simp only [Option.map_some']
    by_cases hw : w.isFile = true
    · have hwfile : ∃ fid, w = .file fid := by
        cases w <;> simp [JsonVal.isFile] at hw
        exact ⟨_, rfl⟩
      obtain ⟨fid, rfl⟩ := hwfile
      simp only [fileKeyPaths, List.mem_singleton] at htl
      subst htl
      simp [JsonVal.isFile, getAtKeys]
    · have hwmem : (k, w) ∈ fs := lookupField_mem fs k w hl
      have hwfw : wfKeys w = true := wfKeysFields_mem fs k w hwf'.2 hwmem
      have hw' : w.isFile = false := by simpa using hw
      have hrec := ih (k, w) hwmem hwfw hw' tl htl
      simp only [hw', Bool.false_eq_true, if_false]
      exact hrec

/-- The imperative `forEach`-with-push code collection equals the declarative
filter of truthy codes, in order and without deduplication. -/
theorem collectCodes_eq_truthyCodes (es : List GraphQlErrorObj) :
    GraphQlError.collectCodes es = truthyCodes es := by
  have h : ∀ (es : List GraphQlErrorObj) (acc : List Int),
      es.foldl
        (fun acc e =>
          match e.extensions with
          | some ext => if ext.code != 0 then acc ++ [ext.code] else acc
          | none => acc)
        acc = acc ++ truthyCodes es := by
    intro es
    induction es with
    | nil =>
      intro acc
      simp [truthyCodes]
    | cons e es ih =>
      intro acc
      cases hx : e.extensions with
      | none =>
        simp only [List.foldl_cons, hx]
        rw [ih]
        simp [truthyCodes, List.filterMap_cons, hx]
      | some ext =>
        cases hb : (ext.code != 0) with
        | true =>
          have hb' : ext.code ≠ 0 := by simpa using hb
          simp only [List.foldl_cons, hx, hb, if_true]
          rw [ih]
          simp [truthyCodes, List.filterMap_cons, hx, hb']
        | false =>
          have hb' : ext.code = 0 := by simpa using hb
          simp only [List.foldl_cons, hx, hb, Bool.false_eq_true, if_false]
          rw [ih]
          simp [truthyCodes, List.filterMap_cons, hx, hb']
  rw [GraphQlError.collectCodes, h]
  simp

/-- C6: for every envelope, `GraphQlError.fromResponse` returns an error
whose message is the first error object's message when the errors array is
present and non-empty and `"unknown error"` otherwise, whose errors field is
the envelope's errors list (empty if absent), and whose codes list contains
exactly the truthy `extensions.code` values in the order the errors appear,
without deduplication. -/
theorem fromResponse_fields_spec (d : GraphQlResponse) :
    (GraphQlError.fromResponse d).message =
      (match d.errors with
       | some (e0 :: _) => e0.message
       | _ => "unknown error")
  ∧ (GraphQlError.fromResponse d).errors = some (d.errors.getD [])
  ∧ (GraphQlError.fromResponse d).codes = some (truthyCodes (d.errors.getD [])) := by
  obtain ⟨dd, de⟩ := d
  cases de with
  | none =>
    simp [GraphQlError.fromResponse, GraphQlError.new, truthyCodes]
  | some es =>
    cases es with
    | nil =>
      simp [GraphQlError.fromResponse, GraphQlError.new, truthyCodes]
    | cons e0 es =>
      simp [GraphQlError.fromResponse, GraphQlError.new, collectCodes_eq_truthyCodes]

/-- C7: round-trip identity — for every envelope, passing the error produced
by `GraphQlError.fromResponse` to `GraphQlError.fromError` returns that very
error (non-null). -/
theorem fromError_fromResponse_roundtrip (d : GraphQlResponse) :
    GraphQlError.fromError (GraphQlError.fromResponse d) =
      some (GraphQlError.fromResponse d) := by
  have hname : (GraphQlError.fromResponse d).name = GraphQlErrorName := by
    obtain ⟨dd, de⟩ := d
    cases de with
    | none => simp [GraphQlError.fromResponse, GraphQlError.new]
    | some es => cases es <;> simp [GraphQlError.fromResponse, GraphQlError.new]
  simp [GraphQlError.fromError, hname]

/-- C8: on a decoded envelope with `data` absent and no errors the client
throws the fixed plain error `new Error('no data returned')`, and that error
is not classified as a GraphQL error: `fromError` returns null on it, so
`hasErrorCode` is false on it for every code. -/
theorem no_data_plain_error (d : GraphQlResponse) (c : Int)
    (h1 : d.data = none) (h2 : d.errors = none) :
    handleResponse d = .thrown noDataError
  ∧ GraphQlError.fromError noDataError = none
  ∧ GraphQlError.hasErrorCode noDataError c = false := by
  obtain ⟨dd, de⟩ := d
  simp only at h1 h2
  subst h1
  subst h2
  refine ⟨?_, ?_, ?_⟩
  · simp [handleResponse]
  · simp [GraphQlError.fromError, noDataError, GraphQlErrorName]
  · simp [GraphQlError.hasErrorCode, GraphQlError.fromError, noDataError, GraphQlErrorName]

/-- Witness for C8: the concrete empty envelope and code 42. -/
theorem no_data_plain_error_witness :
    handleResponse { data := none, errors := none } = .thrown noDataError
  ∧ GraphQlError.fromError noDataError = none
  ∧ GraphQlError.hasErrorCode noDataError 42 = false :=
  no_data_plain_error { data := none, errors := none } 42 rfl rfl

/-- C9: `GraphQlError.fromError` classifies solely by the `name` field — any
error value named `GraphQlError` is returned as-is (non-null), even one not
built by the `GraphQlError` class; shape and class identity play no role. -/
theorem fromError_classifies_by_name (e : JsError) (h : e.name = GraphQlErrorName) :
    GraphQlError.fromError e = some e := by
  simp [GraphQlError.fromError, h]

/-- Witness for C9: a forged error carrying only the name tag — its `codes`
and `errors` fields are absent — is still classified as a GraphQL error. -/
theorem fromError_classifies_by_name_witness :
    GraphQlError.fromError forgedError = some forgedError
  ∧ forgedError.codes = none ∧ forgedError.errors = none :=
  ⟨fromError_classifies_by_name forgedError rfl, rfl, rfl⟩

/-- Counterexample to C2: the envelope whose `errors` array is present but
empty does trigger the GraphQL-error rejection path — the client throws the
error built by `fromResponse` (the source checks `typeof data.errors !==
'undefined'`, not the length), contradicting the claim that a present-but-
empty errors array never triggers that path. -/
theorem empty_errors_rejection_counterexample :
    emptyErrorsEnvelope.errors = some []
  ∧ handleResponse emptyErrorsEnvelope =
      .thrown (GraphQlError.fromResponse emptyErrorsEnvelope)
  ∧ (GraphQlError.fromResponse emptyErrorsEnvelope).name = GraphQlErrorName := by
  refine ⟨rfl, ?_, ?_⟩
  · simp [handleResponse, emptyErrorsEnvelope]
  · simp [GraphQlError.fromResponse, GraphQlError.new, emptyErrorsEnvelope]

/-- C2 as amended: the client rejects with the `fromResponse`-built
Normalized Error exactly when the decoded envelope's `errors` array is
present — empty or not; in the empty case that error carries the fallback
message `"unknown error"`. -/
theorem graphql_rejection_iff_errors_present (d : GraphQlResponse) :
    (handleResponse d = .thrown (GraphQlError.fromResponse d)) ↔ d.errors.isSome = true := by
  obtain ⟨dd, de⟩ := d
  cases de with
  | some es => simp [handleResponse]
  | none =>
    simp only [handleResponse, Option.isSome_none, Bool.false_eq_true, iff_false]
    cases dd with
    | none =>
      intro h
      simp only [CallOutcome.thrown.injEq] at h
      have : noDataError.name = (GraphQlError.fromResponse ⟨none, none⟩).name := by rw [h]
      simp [noDataError, GraphQlError.fromResponse, GraphQlError.new, GraphQlErrorName] at this
    | some x =>
      intro h
      simp at h

/-- Counterexample to C4: calling the tree walker on an undefined root is
not a visitor no-op — the walker falls through its container tests and
passes the undefined value straight to the callback, so a tracing visitor
records exactly one invocation, with value `undefined` and path `""`. -/
theorem walk_undefined_root_counterexample :
    (walkObject traceVisitor .undefined []).2 = [(JsonVal.undefined, "")]
  ∧ (walkObject traceVisitor .undefined []).2 ≠ [] := by
  constructor
  · simp [walkObject, doWalkObject, traceVisitor]
  · simp [walkObject, doWalkObject, traceVisitor]

/-- C4 as amended: calling the tree walker with an undefined root value
invokes the visitor exactly once, with the undefined value and the empty
path, returns the root unchanged and performs no nulling; the resulting
visitor state is one single visitor step from the initial state. -/
theorem walk_undefined_root_single_visit {σ : Type} (fn : Visitor σ) (s : σ) :
    walkObject fn .undefined s = (.undefined, (fn s .undefined "").1) := by
  simp [walkObject, doWalkObject]

/-- Counterexample to C3: a variables object holding one file is mutated by
the call — the file leaf of the caller's own object is overwritten with
`null` by the file-nulling pass (the source clones nothing). -/
theorem caller_variables_mutated_counterexample :
    variablesAfterCall (.obj [("upload", .file 0)]) ≠ .obj [("upload", .file 0)] := by
  have h := clientWalk_eq (.obj [("upload", .file 0)])
  simp only [variablesAfterCall, h]
  simp [nullFiles, nullFilesFields, JsonVal.isFile]

/-- C3 as amended: after a call with a variables argument the caller's
original variables object equals the input with every file-like leaf held
inside a container replaced by `null` — so it is left unchanged exactly by
trees whose containers hold no file leaves, and never otherwise. -/
theorem caller_variables_after_call (v : JsonVal) :
    variablesAfterCall v = nullFiles v := by
  simp [variablesAfterCall, clientWalk_eq]

/-- C5: for every defined variables tree with zero file-like leaves the
client chooses JSON encoding — the body is the JSON serialization of
`{ query, variables }` with the variables tree unchanged, and the headers
carry `Content-Type: application/json` (plus the always-set `Accept`). -/
theorem json_encoding_of_no_files (q : String) (v : JsonVal)
    (hu : v ≠ .undefined) (h0 : countFiles v = 0) :
    buildRequest q v =
      { body := .jsonBody (.obj [("query", .str q), ("variables", v)]),
        headers := [("Accept", "application/json"), ("Content-Type", "application/json")] } := by
  have hocc : fileOccs v "" = [] := by
    have := fileOccs_length v ""
    rw [h0] at this
    exact List.length_eq_zero.mp this
  have hnf := nullFiles_of_no_files v h0
  have hvf : varsField v = [("variables", v)] := by
    cases v with
    | undefined => exact absurd rfl hu
    | null => simp [varsField]
    | bool b => simp [varsField]
    | num n => simp [varsField]
    | str s => simp [varsField]
    | file id => simp [varsField]
    | arr xs => simp [varsField]
    | obj fs => simp [varsField]
  simp [buildRequest, clientWalk_eq, hocc, mapEntries, fileEntries, stringifyArg, hnf, hvf]

/-- Witness for C5: a concrete query and a file-free variables object. -/
theorem json_encoding_of_no_files_witness :
    buildRequest "query { me }" (.obj [("a", .num 1)]) =
      { body := .jsonBody (.obj [("query", .str "query { me }"),
          ("variables", .obj [("a", .num 1)])]),
        headers := [("Accept", "application/json"), ("Content-Type", "application/json")] } :=
  json_encoding_of_no_files "query { me }" (.obj [("a", .num 1)])
    (by simp)
    (by simp [countFiles, countFilesFields])

/-- C1: for every well-formed variables tree that is not itself a bare file
and holds `N ≥ 1` file-like leaves, the client's file map has exactly `N`
entries keyed `"0"`, `"1"`, … in walk-encounter order, each a one-element
array holding the `"variables."`-prefixed dotted path of one file
occurrence; the request is multipart, its `operations` part serializes the
tree with `null` at every file path — structural access at each file key
path of the input yields `null` — and otherwise structurally identical to
the input (it equals `nullFiles v`, the input with exactly the file leaves
replaced). -/
theorem client_multipart_file_map (q : String) (v : JsonVal)
    (hroot : v.isFile = false) (hN : 1 ≤ countFiles v) (hwf : wfKeys v = true) :
    (clientWalk v).2.map = mapEntries 0 (fileOccs v "")
  ∧ (clientWalk v).2.map.length = countFiles v
  ∧ (clientWalk v).1 = nullFiles v
  ∧ ((fileKeyPaths v).all fun ks => isNullRes (getAtKeys (nullFiles v) ks)) = true
  ∧ buildRequest q v =
      { body := .formBody (.obj [("query", .str q), ("variables", nullFiles v)])
          (mapEntries 0 (fileOccs v "")) (fileEntries 0 (fileOccs v "")),
        headers := [("Accept", "application/json")] } := by
  have hw := clientWalk_eq v
  have hlen : (mapEntries 0 (fileOccs v "")).length = countFiles v := by
    rw [mapEntries_length, fileOccs_length]
  have hvu : v ≠ .undefined := by
    intro h
    subst h
    simp [countFiles] at hN
  have hnfu : nullFiles v ≠ .undefined := by
    cases v with
    | undefined => exact absurd rfl hvu
    | null => simp [nullFiles]
    | bool b => simp [nullFiles]
    | num n => simp [nullFiles]
    | str s => simp [nullFiles]
    | file id => simp [nullFiles]
    | arr xs => simp [nullFiles]
    | obj fs => simp [nullFiles]
  have hvf : varsField (nullFiles v) = [("variables", nullFiles v)] := by
    cases hnv : nullFiles v with
    | undefined => exact absurd hnv hnfu
    | null => simp [varsField]
    | bool b => simp [varsField]
    | num n => simp [varsField]
    | str s => simp [varsField]
    | file id => simp [varsField]
    | arr xs => simp [varsField]
    | obj fs => simp [varsField]
  refine ⟨by rw [hw], by rw [hw]; exact hlen, by rw [hw], ?_, ?_⟩
  · rw [List.all_eq_true]
    intro ks hks
    have := getAtKeys_nullFiles v hwf hroot ks hks
    simp [isNullRes, this]
  · have hne : (mapEntries 0 (fileOccs v "")).length ≠ 0 := by
      rw [hlen]
      omega
    simp [buildRequest, hw, hne, stringifyArg, hvf]

/-- Witness for C1: the two-file example tree, with a top-level file under
`"avatar"` and a nested one at `variables.user.photos[2]`. -/
theorem client_multipart_file_map_witness :
    (clientWalk exTree).2.map = mapEntries 0 (fileOccs exTree "")
  ∧ (clientWalk exTree).2.map.length = countFiles exTree
  ∧ (clientWalk exTree).1 = nullFiles exTree
  ∧ ((fileKeyPaths exTree).all fun ks => isNullRes (getAtKeys (nullFiles exTree) ks)) = true
  ∧ buildRequest "q" exTree =
      { body := .formBody (.obj [("query", .str "q"), ("variables", nullFiles exTree)])
          (mapEntries 0 (fileOccs exTree "")) (fileEntries 0 (fileOccs exTree "")),
        headers := [("Accept", "application/json")] } :=
  client_multipart_file_map "q" exTree
    (by simp [exTree, JsonVal.isFile])
    (by simp [exTree, countFiles, countFilesFields, countFilesArr])
    (by simp [exTree, wfKeys, wfKeysFields, wfKeysArr, keysNodup])

/-- C10: when the variables value is itself a single `File`, the visitor
fires exactly once with the empty path, the call is multipart with the
one-entry file map `{"0": ["variables."]}` — note the trailing dot — and
the `File` is not replaced by `null` anywhere: the root is never nulled, so
the `operations` part still holds the file value at `variables`. -/
theorem root_file_variables_multipart (q : String) (id : Nat) :
    walkObject traceVisitor (.file id) [] = (.file id, [(.file id, "")])
  ∧ clientWalk (.file id) = (.file id, ⟨[("0", ["variables."])], [("0", .file id)]⟩)
  ∧ buildRequest q (.file id) =
      { body := .formBody (.obj [("query", .str q), ("variables", .file id)])
          [("0", ["variables."])] [("0", .file id)],
        headers := [("Accept", "application/json")] } := by
  have hcw : clientWalk (.file id) =
      (.file id, ⟨[("0", ["variables."])], [("0", .file id)]⟩) := by
    simp [clientWalk, walkObject, doWalkObject, fileVisitor]
    decide
  refine ⟨?_, hcw, ?_⟩
  · simp [walkObject, doWalkObject, traceVisitor]
  · simp [buildRequest, hcw, stringifyArg, varsField]
